import Mathlib

/-
Verification of the JSONLogic rules-engine core: the key extractor
(`getRequiredKeys`, src/analyzer.ts), the validator (`canExecuteRule` and
`hasKey`, src/validator.ts) and the evaluation wrapper (`evaluateRule`,
src/evaluator.ts), shallowly embedded over the JSON value domain.
-/

/-- The JavaScript/JSON value domain the three functions operate on.
`undef` models the JavaScript `undefined` value, which is distinct from
`null` (both satisfy the loose equality `value == null` used as the
nullish guard in the source). An object is its ordered list of own
enumerable string-keyed entries; an array is its ordered element list. -/
inductive Json where
  | null : Json
  | undef : Json
  | bool : Bool → Json
  | num : Int → Json
  | str : String → Json
  | arr : List Json → Json
  | obj : List (String × Json) → Json

/-- Own-property lookup on an object's entry list: models the JavaScript
pair `key in obj` / `obj[key]` on a plain JSON object (first matching
entry; a parsed JSON object has no duplicate keys). -/
def lookupEntry (key : String) : List (String × Json) → Option Json
  | [] => none
  | (k, v) :: rest => if k = key then some v else lookupEntry key rest

/-- Insertion-ordered set insertion: models `Set.add` on the accumulating
key set of `getRequiredKeys` (a JavaScript `Set` preserves insertion
order and ignores re-insertion of a present element). -/
def setAdd (s : List String) (x : String) : List String :=
  if x ∈ s then s else s ++ [x]

/-- The var-recording step of `traverse` (src/analyzer.ts lines 64-73):
if the object owns a property named `var` whose value is a string, that
string is added to the key set; if the value is an array whose first
element is a string, that first element is added; otherwise the key set
is left unchanged. -/
def varStep (kvs : List (String × Json)) (keys : List String) : List String :=
  match lookupEntry "var" kvs with
  | some (Json.str s) => setAdd keys s
  | some (Json.arr (Json.str s :: _)) => setAdd keys s
  | _ => keys

mutual

/-- The recursive walk of `getRequiredKeys` (src/analyzer.ts lines
44-84), threading the accumulating key set: nullish nodes and primitive
leaves contribute nothing; an array node traverses its elements in
order; an object node first performs the var-recording step and then
traverses every property value in entry order. -/
def traverse : Json → List String → List String
  | Json.null, keys => keys
  | Json.undef, keys => keys
  | Json.bool _, keys => keys
  | Json.num _, keys => keys
  | Json.str _, keys => keys
  | Json.arr items, keys => traverseItems items keys
  | Json.obj kvs, keys => traverseValues kvs (varStep kvs keys)

/-- Element-by-element traversal of an array node's items, left to
right (src/analyzer.ts lines 51-56). -/
def traverseItems : List Json → List String → List String
  | [], keys => keys
  | item :: rest, keys => traverseItems rest (traverse item keys)

/-- Traversal of every property value of an object node, in the
object's entry order (src/analyzer.ts lines 76-78,
`Object.values(obj)`). -/
def traverseValues : List (String × Json) → List String → List String
  | [], keys => keys
  | (_, v) :: rest, keys => traverseValues rest (traverse v keys)

end

/-- Extraction of the data keys a rule requires (src/analyzer.ts
`getRequiredKeys`): run the walk on an empty key set and return the
resulting insertion-ordered set as a list (`Array.from(keys)`). -/
def getRequiredKeys (rule : Json) : List String :=
  traverse rule []

/-- Accumulator loop for `splitOnDot`: collects the current segment's
characters (reversed) and emits a segment at each separator. -/
def splitAux : List Char → List Char → List String
  | [], acc => [String.mk acc.reverse]
  | c :: rest, acc =>
      if c = '.' then String.mk acc.reverse :: splitAux rest []
      else splitAux rest (c :: acc)

/-- Splitting a key path on the dot separator: models JavaScript
`keyPath.split('.')` (in particular the empty path splits to the
one-element list containing the empty string, and a trailing dot yields
a trailing empty segment). -/
def splitOnDot (s : String) : List String :=
  splitAux s.data []

/-- Digit accumulation for canonical array-index parsing. -/
def charsToNatAux : List Char → Nat → Nat
  | [], acc => acc
  | c :: rest, acc => charsToNatAux rest (acc * 10 + (c.toNat - 48))

/-- Recognition of a canonical decimal numeral: a single digit, or a
nonzero leading digit followed by digits (so `"00"` or `"+1"` qualify
for nothing). -/
def isCanonicalDigits : List Char → Bool
  | [] => false
  | [c] => c.isDigit
  | c :: rest => decide ('1' ≤ c) && decide (c ≤ '9') && rest.all Char.isDigit

/-- Canonical array-index parsing for a path segment used against an
array value: a segment addresses an array element exactly when it is the
canonical decimal numeral of an index (JavaScript array own index keys
are canonical numeric strings). -/
def arrayIndex? (key : String) : Option Nat :=
  if isCanonicalDigits key.data then some (charsToNatAux key.data 0) else none

/-- A value the segment walk of `hasKey` can reach: a JSON value from
the data, or one of the host values reachable by property access — a
function (all functions are identified, since the walk observes nothing
of a function but its `typeof`), `Object.prototype`, or
`Array.prototype`. -/
inductive JsCurrent where
  | val (j : Json) : JsCurrent
  | func : JsCurrent
  | objectProto : JsCurrent
  | arrayProto : JsCurrent

/-- The string-keyed own properties of `Object.prototype` specified by
ECMAScript (all function-valued except the `__proto__` accessor, which
is handled separately); these are visible through the `in` operator on
every plain object. -/
def objectProtoMethodNames : List String :=
  ["constructor", "hasOwnProperty", "isPrototypeOf", "propertyIsEnumerable",
   "toLocaleString", "toString", "valueOf",
   "__defineGetter__", "__defineSetter__", "__lookupGetter__", "__lookupSetter__"]

/-- The string-keyed own properties of `Array.prototype` specified by
ECMAScript (through ES2023, the baseline of the library's V8-based
target runtimes), all function-valued; `length` and `__proto__` are
handled separately. -/
def arrayProtoMethodNames : List String :=
  ["constructor", "at", "concat", "copyWithin", "entries", "every", "fill",
   "filter", "find", "findIndex", "findLast", "findLastIndex", "flat",
   "flatMap", "forEach", "includes", "indexOf", "join", "keys", "lastIndexOf",
   "map", "pop", "push", "reduce", "reduceRight", "reverse", "shift", "slice",
   "some", "sort", "splice", "toLocaleString", "toReversed", "toSorted",
   "toSpliced", "toString", "unshift", "values", "with"]

/-- Models the loose-equality nullish test `current == null`, satisfied
by exactly `null` and `undefined`. -/
def isNullish : JsCurrent → Bool
  | JsCurrent.val Json.null => true
  | JsCurrent.val Json.undef => true
  | _ => false

/-- Models `typeof current === 'object'`: true for objects, arrays, the
prototype objects and `null`; false for `undefined`, primitives and
functions (whose `typeof` is `'function'`). -/
def typeofObject : JsCurrent → Bool
  | JsCurrent.val Json.null => true
  | JsCurrent.val (Json.obj _) => true
  | JsCurrent.val (Json.arr _) => true
  | JsCurrent.objectProto => true
  | JsCurrent.arrayProto => true
  | _ => false

/-- Whether `key` names a property a plain object inherits through its
prototype chain: the `__proto__` accessor or an `Object.prototype`
method. -/
def objNameIn (key : String) : Bool :=
  decide (key = "__proto__") || decide (key ∈ objectProtoMethodNames)

/-- The value a plain object yields for an inherited (or absent) name:
`__proto__` yields the object's prototype `Object.prototype`, a method
name yields a function, anything else yields `undefined` (an absent
property reads as `undefined` in JavaScript). -/
def objNameProp (key : String) : JsCurrent :=
  if key = "__proto__" then JsCurrent.objectProto
  else if key ∈ objectProtoMethodNames then JsCurrent.func
  else JsCurrent.val Json.undef

/-- Whether `key` names a non-index property visible on an array: its
own `length`, the inherited `__proto__` accessor, or a method of
`Array.prototype` or `Object.prototype`. -/
def arrNameIn (key : String) : Bool :=
  decide (key = "length") || decide (key = "__proto__") ||
    decide (key ∈ arrayProtoMethodNames) || decide (key ∈ objectProtoMethodNames)

/-- The value an array yields for a non-index name: `length` is the
element count, `__proto__` is the array's prototype `Array.prototype`,
a method name is a function, anything else (including an out-of-bounds
index, which matches no name) reads as `undefined`. -/
def arrNameProp (items : List Json) (key : String) : JsCurrent :=
  if key = "length" then JsCurrent.val (Json.num items.length)
  else if key = "__proto__" then JsCurrent.arrayProto
  else if key ∈ arrayProtoMethodNames then JsCurrent.func
  else if key ∈ objectProtoMethodNames then JsCurrent.func
  else JsCurrent.val Json.undef

/-- The value `Object.prototype` itself yields for a name: its
`__proto__` is `null` (the end of the chain), its method names are
functions. -/
def opNameProp (key : String) : JsCurrent :=
  if key = "__proto__" then JsCurrent.val Json.null
  else if key ∈ objectProtoMethodNames then JsCurrent.func
  else JsCurrent.val Json.undef

/-- The value `Array.prototype` itself yields for a name: it is an
(empty) array, so its own `length` is `0`; its `__proto__` is
`Object.prototype`; method names are functions. -/
def apNameProp (key : String) : JsCurrent :=
  if key = "length" then JsCurrent.val (Json.num 0)
  else if key = "__proto__" then JsCurrent.objectProto
  else if key ∈ arrayProtoMethodNames then JsCurrent.func
  else if key ∈ objectProtoMethodNames then JsCurrent.func
  else JsCurrent.val Json.undef

/-- Models the JavaScript `in` operator on an object-typed value: an
own entry, an in-bounds element, an array's `length`, or a name
inherited through the prototype chain (own entries shadow inherited
names; a numeric segment is never a method name, so the name check on
the index branch is vacuous there and kept only for uniformity). -/
def keyIn : JsCurrent → String → Bool
  | JsCurrent.val (Json.obj kvs), key =>
      match lookupEntry key kvs with
      | some _ => true
      | none => objNameIn key
  | JsCurrent.val (Json.arr items), key =>
      match arrayIndex? key with
      | some n => decide (n < items.length) || arrNameIn key
      | none => arrNameIn key
  | JsCurrent.objectProto, key => objNameIn key
  | JsCurrent.arrayProto, key => arrNameIn key
  | _, _ => false

/-- Models the property read `current[key]` on an object-typed value;
an absent property reads as `undefined`. -/
def getProp : JsCurrent → String → JsCurrent
  | JsCurrent.val (Json.obj kvs), key =>
      match lookupEntry key kvs with
      | some v => JsCurrent.val v
      | none => objNameProp key
  | JsCurrent.val (Json.arr items), key =>
      match arrayIndex? key with
      | some n =>
          match items[n]? with
          | some v => JsCurrent.val v
          | none => arrNameProp items key
      | none => arrNameProp items key
  | JsCurrent.objectProto, key => opNameProp key
  | JsCurrent.arrayProto, key => apNameProp key
  | _, _ => JsCurrent.val Json.undef

/-- The segment walk of `hasKey` (src/validator.ts lines 69-80): for
each segment in order, fail immediately when the current value is
nullish (`current == null`), is not of object type (`typeof current
!== 'object'`), or does not have the segment's name visible to the
JavaScript `in` operator (`!(key in current)`); otherwise descend into
the property's value. All segments consumed means success. -/
def hasKeyLoop : List String → JsCurrent → Bool
  | [], _ => true
  | key :: rest, current =>
      if isNullish current || !typeofObject current || !keyIn current key then false
      else hasKeyLoop rest (getProp current key)

/-- Nested-path existence check (src/validator.ts `hasKey`): split the
path on dots and walk the data value segment by segment. -/
def hasKey (data : Json) (keyPath : String) : Bool :=
  hasKeyLoop (splitOnDot keyPath) (JsCurrent.val data)

/-- Rule-executability check (src/validator.ts `canExecuteRule`):
extract the required keys; an empty requirement list means the rule can
always execute; otherwise every required path must pass the existence
check (the source loop returns false at the first failing path). -/
def canExecuteRule (rule : Json) (data : Json) : Bool :=
  let requiredKeys := getRequiredKeys rule
  if requiredKeys.length = 0 then true
  else requiredKeys.all (fun key => hasKey data key)

/-- A value thrown by the external JSONLogic engine: either an `Error`
instance carrying a message (the `error instanceof Error` branch of the
source's catch) or any other thrown value, which carries no message. -/
inductive JSThrown where
  | jsError (message : String) : JSThrown
  | nonError : JSThrown

/-- The single normalized failure kind of the evaluation wrapper
(src/evaluator.ts throws `new Error(...)` with a normalized message). -/
structure EvaluationError where
  message : String

/-- Nullish coalescing of the optional data argument against the empty
object: models `data ?? {}` (both `null` and `undefined` — the latter
also standing for an omitted argument — default to `{}`). -/
def nullishData (data : Json) : Json :=
  match data with
  | Json.null => Json.obj []
  | Json.undef => Json.obj []
  | d => d

/-- The evaluation wrapper (src/evaluator.ts `evaluateRule`),
parameterized by the external JSONLogic engine (`jsonLogic.apply`,
modelled abstractly as any function that either returns a value or
throws): delegate to the engine on the defaulted data; pass a
successful result through; normalize an `Error`-instance failure to an
`EvaluationError` carrying the original message, and any other thrown
value to an `EvaluationError` with the generic unknown-error message. -/
def evaluateRule (engine : Json → Json → Except JSThrown Json)
    (rule : Json) (data : Json) : Except EvaluationError Json :=
  match engine rule (nullishData data) with
  | Except.ok v => Except.ok v
  | Except.error (JSThrown.jsError msg) =>
      Except.error (EvaluationError.mk ("Failed to evaluate rule: " ++ msg))
  | Except.error JSThrown.nonError =>
      Except.error (EvaluationError.mk "Failed to evaluate rule: Unknown error")

/-- Spec-side: the normalized failure demanded for a thrown engine
value — an `EvaluationError` carrying the original failure's message
when one exists, and the generic unknown-error message otherwise. -/
def normalizedFailure : JSThrown → EvaluationError
  | JSThrown.jsError msg => EvaluationError.mk ("Failed to evaluate rule: " ++ msg)
  | JSThrown.nonError => EvaluationError.mk "Failed to evaluate rule: Unknown error"

/-- Spec-side: the path recorded at one object node, following the
spec's words (section 4.2 step 3a): a string-valued `var` property
records that string; an array-valued `var` property whose first element
is a string records that first element; anything else records nothing
for this property. -/
def varRecord (kvs : List (String × Json)) : List String :=
  match lookupEntry "var" kvs with
  | some (Json.str s) => [s]
  | some (Json.arr (Json.str s :: _)) => [s]
  | _ => []

mutual

/-- Spec-side: the raw sequence of recorded var paths produced by a
pre-order, depth-first, left-to-right traversal of the rule tree
(arrays element by element in order, object values in entry order),
with no deduplication applied. -/
def recordedPaths : Json → List String
  | Json.arr items => recordedItems items
  | Json.obj kvs => varRecord kvs ++ recordedValues kvs
  | _ => []

/-- Spec-side: concatenated recordings of an array's elements, in
order. -/
def recordedItems : List Json → List String
  | [] => []
  | item :: rest => recordedPaths item ++ recordedItems rest

/-- Spec-side: concatenated recordings of an object's property values,
in entry order. -/
def recordedValues : List (String × Json) → List String
  | [] => []
  | (_, v) :: rest => recordedPaths v ++ recordedValues rest

end

/-- Spec-side: deduplication by first occurrence — each element appears
exactly once, at the position of its first occurrence in the input. -/
def dedupFirst : List String → List String
  | [] => []
  | x :: xs => x :: dedupFirst (xs.filter (fun y => y != x))
termination_by l => l.length
decreasing_by
  simp only [List.length_cons]
  exact Nat.lt_succ_of_le (List.length_filter_le _ _)

/-- Spec-side: the value `current` is an object (or an array, which
counts as an object with canonical numeric-string index keys) that
DIRECTLY OWNS a JSON property named `key`, whose value is `w`. A
nullish or primitive `current` owns nothing. This is the spec's
own-property reading of the existence step; the `in` operator the
source actually uses sees more (see `Visible`). -/
def OwnsProp (current : Json) (key : String) (w : Json) : Prop :=
  (∃ kvs, current = Json.obj kvs ∧ lookupEntry key kvs = some w) ∨
  (∃ items n, current = Json.arr items ∧ arrayIndex? key = some n ∧
    items[n]? = some w)

/-- Spec-side: a segment path exists in a value when the segments can
be consumed in order, each step descending through a DIRECTLY OWNED
property (whose value may itself be `null` or `undefined`); the empty
segment list always exists. This renders the spec's claim that a
segment whose name the current value does not directly own fails the
check — which the source's `in` operator refutes (see the
corresponding counterexample). -/
def PathExists : List String → Json → Prop
  | [], _ => True
  | key :: rest, current => ∃ next, OwnsProp current key next ∧ PathExists rest next

/-- Spec-side: the name-visibility part of a plain object's `in`
semantics, declaratively — the `__proto__` accessor reveals the
prototype, and an `Object.prototype` method name reveals a function. -/
def ObjNameVisible (key : String) (w : JsCurrent) : Prop :=
  (key = "__proto__" ∧ w = JsCurrent.objectProto) ∨
  (key ≠ "__proto__" ∧ key ∈ objectProtoMethodNames ∧ w = JsCurrent.func)

/-- Spec-side: the name-visibility part of an array's `in` semantics,
declaratively — own `length`, the `__proto__` accessor revealing
`Array.prototype`, or an inherited method name revealing a function. -/
def ArrNameVisible (items : List Json) (key : String) (w : JsCurrent) : Prop :=
  (key = "length" ∧ w = JsCurrent.val (Json.num items.length)) ∨
  (key ≠ "length" ∧ key = "__proto__" ∧ w = JsCurrent.arrayProto) ∨
  (key ≠ "length" ∧ key ≠ "__proto__" ∧
    (key ∈ arrayProtoMethodNames ∨ key ∈ objectProtoMethodNames) ∧
    w = JsCurrent.func)

/-- Spec-side: name visibility on `Object.prototype` itself — its
`__proto__` is `null`, its method names are functions. -/
def OpNameVisible (key : String) (w : JsCurrent) : Prop :=
  (key = "__proto__" ∧ w = JsCurrent.val Json.null) ∨
  (key ≠ "__proto__" ∧ key ∈ objectProtoMethodNames ∧ w = JsCurrent.func)

/-- Spec-side: name visibility on `Array.prototype` itself — it is an
empty array with own `length` `0`, its `__proto__` is
`Object.prototype`, its method names (own or inherited) are
functions. -/
def ApNameVisible (key : String) (w : JsCurrent) : Prop :=
  (key = "length" ∧ w = JsCurrent.val (Json.num 0)) ∨
  (key ≠ "length" ∧ key = "__proto__" ∧ w = JsCurrent.objectProto) ∨
  (key ≠ "length" ∧ key ≠ "__proto__" ∧
    (key ∈ arrayProtoMethodNames ∨ key ∈ objectProtoMethodNames) ∧
    w = JsCurrent.func)

/-- Spec-side: `key` is visible on `current` through the JavaScript
`in` operator with resulting read value `w`: an own JSON entry of an
object (shadowing anything inherited), an in-bounds element of an
array, or a prototype-chain/`length` name on an object, array, or one
of the two prototype objects. Nullish values, primitives and functions
have nothing visible. -/
def Visible (current : JsCurrent) (key : String) (w : JsCurrent) : Prop :=
  (∃ kvs v, current = JsCurrent.val (Json.obj kvs) ∧
    lookupEntry key kvs = some v ∧ w = JsCurrent.val v) ∨
  (∃ kvs, current = JsCurrent.val (Json.obj kvs) ∧
    lookupEntry key kvs = none ∧ ObjNameVisible key w) ∨
  (∃ items n v, current = JsCurrent.val (Json.arr items) ∧
    arrayIndex? key = some n ∧ items[n]? = some v ∧ w = JsCurrent.val v) ∨
  (∃ items, current = JsCurrent.val (Json.arr items) ∧
    ArrNameVisible items key w) ∨
  (current = JsCurrent.objectProto ∧ OpNameVisible key w) ∨
  (current = JsCurrent.arrayProto ∧ ApNameVisible key w)

/-- Spec-side: a segment path exists under the `in` semantics — the
segments can be consumed in order, each step descending through a
visible property (own, element, `length`, or prototype-inherited). -/
def JsPathExists : List String → JsCurrent → Prop
  | [], _ => True
  | key :: rest, current => ∃ next, Visible current key next ∧ JsPathExists rest next

/-- Occurrence of one node inside the rule tree of another, along
exactly the edges the traversal follows: a node occurs in itself, in
any array having an item it occurs in, and in any object having a
property value it occurs in. -/
inductive Occurs : Json → Json → Prop where
  | refl (n : Json) : Occurs n n
  | arrElem {s item : Json} {items : List Json} :
      item ∈ items → Occurs s item → Occurs s (Json.arr items)
  | objValue {s v : Json} {k : String} {kvs : List (String × Json)} :
      (k, v) ∈ kvs → Occurs s v → Occurs s (Json.obj kvs)

/-- A node is a variable-reference node for path `p` when it is an
object whose `var` property is the string `p` or an array whose first
element is the string `p`. -/
def IsVarNode (node : Json) (p : String) : Prop :=
  ∃ kvs, node = Json.obj kvs ∧
    (lookupEntry "var" kvs = some (Json.str p) ∨
     ∃ rest, lookupEntry "var" kvs = some (Json.arr (Json.str p :: rest)))

/-- A primitive (non-container, non-nullish-excluded) JSON value:
`null`, `undefined`, a boolean, a number or a string — every shape the
traversal treats as a leaf. -/
def Json.isPrimitive : Json → Bool
  | Json.null => true
  | Json.undef => true
  | Json.bool _ => true
  | Json.num _ => true
  | Json.str _ => true
  | _ => false


/-- The var-recording step equals folding `setAdd` over the spec-side
recording of the node. -/
theorem varStep_eq_foldl (kvs : List (String × Json)) (keys : List String) :
    varStep kvs keys = List.foldl setAdd keys (varRecord kvs) := by
  unfold varStep varRecord
  cases lookupEntry "var" kvs with
  | none => rfl
  | some v =>
    cases v with
    | null => rfl
    | undef => rfl
    | bool b => rfl
    | num n => rfl
    | str s => rfl
    | obj o => rfl
    | arr items =>
      cases items with
      | nil => rfl
      | cons hd tl => cases hd <;> rfl

mutual

/-- The source walk threads the key set exactly as folding `setAdd`
over the spec-side pre-order recording sequence. -/
theorem traverse_eq_foldl : ∀ (node : Json) (keys : List String),
    traverse node keys = List.foldl setAdd keys (recordedPaths node)
  | Json.null, keys => rfl
  | Json.undef, keys => rfl
  | Json.bool _, keys => rfl
  | Json.num _, keys => rfl
  | Json.str _, keys => rfl
  | Json.arr items, keys => by
      show traverseItems items keys = List.foldl setAdd keys (recordedItems items)
      exact traverseItems_eq_foldl items keys
  | Json.obj kvs, keys => by
      show traverseValues kvs (varStep kvs keys)
          = List.foldl setAdd keys (varRecord kvs ++ recordedValues kvs)
      rw [traverseValues_eq_foldl kvs (varStep kvs keys), varStep_eq_foldl,
        List.foldl_append]

/-- Item traversal equals folding `setAdd` over the concatenated
recordings of the items. -/
theorem traverseItems_eq_foldl : ∀ (items : List Json) (keys : List String),
    traverseItems items keys = List.foldl setAdd keys (recordedItems items)
  | [], keys => rfl
  | item :: rest, keys => by
      show traverseItems rest (traverse item keys)
          = List.foldl setAdd keys (recordedPaths item ++ recordedItems rest)
      rw [traverse_eq_foldl item keys, traverseItems_eq_foldl rest, List.foldl_append]

/-- Property-value traversal equals folding `setAdd` over the
concatenated recordings of the values. -/
theorem traverseValues_eq_foldl : ∀ (kvs : List (String × Json)) (keys : List String),
    traverseValues kvs keys = List.foldl setAdd keys (recordedValues kvs)
  | [], keys => rfl
  | (_, v) :: rest, keys => by
      show traverseValues rest (traverse v keys)
          = List.foldl setAdd keys (recordedPaths v ++ recordedValues rest)
      rw [traverse_eq_foldl v keys, traverseValues_eq_foldl rest, List.foldl_append]

end

/-- Folding `setAdd` over a list appends, to the accumulator, the
first-occurrence deduplication of the elements not already present. -/
theorem foldl_setAdd_eq : ∀ (l acc : List String),
    List.foldl setAdd acc l = acc ++ dedupFirst (l.filter (fun y => !decide (y ∈ acc)))
  | [], acc => by simp [dedupFirst]
  | x :: xs, acc => by
      by_cases hx : x ∈ acc
      · have h1 : setAdd acc x = acc := by simp [setAdd, hx]
        have h2 : (x :: xs).filter (fun y => !decide (y ∈ acc))
            = xs.filter (fun y => !decide (y ∈ acc)) := by
          simp [List.filter_cons, hx]
        rw [List.foldl_cons, h1, h2, foldl_setAdd_eq xs acc]
      · have h1 : setAdd acc x = acc ++ [x] := by simp [setAdd, hx]
        have h2 : (x :: xs).filter (fun y => !decide (y ∈ acc))
            = x :: xs.filter (fun y => !decide (y ∈ acc)) := by
          simp [List.filter_cons, hx]
        have h3 : (xs.filter (fun y => !decide (y ∈ acc))).filter (fun y => y != x)
            = xs.filter (fun y => !decide (y ∈ acc ++ [x])) := by
          rw [List.filter_filter]
          apply List.filter_congr
          intro a _
          by_cases hax : a = x
          · subst hax; simp
          · by_cases ha : a ∈ acc <;> simp [hax, ha]
        rw [List.foldl_cons, h1, foldl_setAdd_eq xs (acc ++ [x]), h2]
        simp only [dedupFirst]
        rw [h3, List.append_assoc]
        rfl

/-- The key extractor returns the first-occurrence deduplication of the
pre-order recording sequence. -/
theorem getRequiredKeys_eq_dedupFirst (r : Json) :
    getRequiredKeys r = dedupFirst (recordedPaths r) := by
  have h := traverse_eq_foldl r []
  simp only [getRequiredKeys]
  rw [h, foldl_setAdd_eq]
  have hf : (recordedPaths r).filter (fun y => !decide (y ∈ ([] : List String)))
      = recordedPaths r := by
    apply List.filter_eq_self.mpr
    intro a _
    simp
  rw [hf, List.nil_append]

/-- First-occurrence deduplication preserves membership. -/
theorem mem_dedupFirst (l : List String) : ∀ (x : String), x ∈ dedupFirst l ↔ x ∈ l := by
  induction l using dedupFirst.induct with
  | case1 => intro x; simp [dedupFirst]
  | case2 y ys ih =>
      intro x
      simp only [dedupFirst, List.mem_cons, ih, List.mem_filter]
      by_cases hxy : x = y
      · simp [hxy]
      · simp [hxy]

/-- Membership in the extractor's output is membership in the raw
recording sequence. -/
theorem mem_getRequiredKeys (r : Json) (x : String) :
    x ∈ getRequiredKeys r ↔ x ∈ recordedPaths r := by
  rw [getRequiredKeys_eq_dedupFirst, mem_dedupFirst]

/-- A successful entry lookup identifies an entry of the list. -/
theorem lookupEntry_mem {key : String} {v : Json} :
    ∀ {kvs : List (String × Json)}, lookupEntry key kvs = some v → (key, v) ∈ kvs := by
  intro kvs
  induction kvs with
  | nil => intro h; simp [lookupEntry] at h
  | cons kv rest ih =>
      obtain ⟨k, w⟩ := kv
      intro h
      by_cases hk : k = key
      · subst hk
        simp [lookupEntry] at h
        subst h
        exact List.mem_cons_self _ _
      · simp [lookupEntry, hk] at h
        exact List.mem_cons_of_mem _ (ih h)

/-- A recording of any item of an array is a recording of the array. -/
theorem mem_recordedItems {x : String} {item : Json} :
    ∀ {items : List Json}, item ∈ items → x ∈ recordedPaths item →
      x ∈ recordedItems items := by
  intro items
  induction items with
  | nil => intro h; cases h
  | cons hd tl ih =>
      intro hmem hx
      rcases List.mem_cons.mp hmem with heq | htl
      · subst heq
        show x ∈ recordedPaths item ++ recordedItems tl
        exact List.mem_append_left _ hx
      · show x ∈ recordedPaths hd ++ recordedItems tl
        exact List.mem_append_right _ (ih htl hx)

/-- A recording of any property value of an object is a recording of
the object's values. -/
theorem mem_recordedValues {x : String} {k : String} {v : Json} :
    ∀ {kvs : List (String × Json)}, (k, v) ∈ kvs → x ∈ recordedPaths v →
      x ∈ recordedValues kvs := by
  intro kvs
  induction kvs with
  | nil => intro h; cases h
  | cons kv rest ih =>
      obtain ⟨k2, v2⟩ := kv
      intro hmem hx
      rcases List.mem_cons.mp hmem with heq | hrest
      · injection heq with h1 h2
        subst h1; subst h2
        show x ∈ recordedPaths v ++ recordedValues rest
        exact List.mem_append_left _ hx
      · show x ∈ recordedPaths v2 ++ recordedValues rest
        exact List.mem_append_right _ (ih hrest hx)

/-- A variable-reference node for `p` records `p` at itself. -/
theorem isVarNode_mem_recorded {node : Json} {p : String} (h : IsVarNode node p) :
    p ∈ recordedPaths node := by
  obtain ⟨kvs, heq, hvar⟩ := h
  subst heq
  show p ∈ varRecord kvs ++ recordedValues kvs
  apply List.mem_append_left
  rcases hvar with h1 | ⟨rest, h2⟩
  · simp [varRecord, h1]
  · simp [varRecord, h2]

/-- Any variable-reference node occurring anywhere in a rule tree has
its path in the tree's recording sequence. -/
theorem occurs_mem_recorded {sub node : Json} {q : String}
    (hocc : Occurs sub node) (hvar : IsVarNode sub q) :
    q ∈ recordedPaths node := by
  induction hocc with
  | refl => exact isVarNode_mem_recorded hvar
  | arrElem hmem _ ih =>
      show q ∈ recordedItems _
      exact mem_recordedItems hmem ih
  | objValue hmem _ ih =>
      show q ∈ varRecord _ ++ recordedValues _
      exact List.mem_append_right _ (mem_recordedValues hmem ih)

/-- Occurrence is transitive. -/
theorem occurs_trans {a b c : Json} (h1 : Occurs a b) (h2 : Occurs b c) :
    Occurs a c := by
  induction h2 with
  | refl => exact h1
  | arrElem hmem _ ih => exact Occurs.arrElem hmem ih
  | objValue hmem _ ih => exact Occurs.objValue hmem ih

/-- No method name of `Object.prototype` parses as an array index. -/
theorem arrayIndex?_objectProtoNames :
    ∀ k ∈ objectProtoMethodNames, arrayIndex? k = none := by decide

/-- No method name of `Array.prototype` parses as an array index. -/
theorem arrayIndex?_arrayProtoNames :
    ∀ k ∈ arrayProtoMethodNames, arrayIndex? k = none := by decide

/-- The segment `length` parses as no array index. -/
theorem arrayIndex?_length_none : arrayIndex? "length" = none := by decide

/-- The segment `__proto__` parses as no array index. -/
theorem arrayIndex?_proto_none : arrayIndex? "__proto__" = none := by decide

/-- A name an object's `in` check accepts is visible with the value the
property read produces. -/
theorem objName_visible {key : String} (h : objNameIn key = true) :
    ObjNameVisible key (objNameProp key) := by
  by_cases hp : key = "__proto__"
  · exact Or.inl ⟨hp, by simp [objNameProp, hp]⟩
  · have hmem : key ∈ objectProtoMethodNames := by
      simp [objNameIn, hp] at h
      exact h
    exact Or.inr ⟨hp, hmem, by simp [objNameProp, hp, hmem]⟩

/-- A non-index name an array's `in` check accepts is visible with the
value the property read produces. -/
theorem arrName_visible {key : String} (items : List Json) (h : arrNameIn key = true) :
    ArrNameVisible items key (arrNameProp items key) := by
  by_cases hl : key = "length"
  · exact Or.inl ⟨hl, by simp [arrNameProp, hl]⟩
  · by_cases hp : key = "__proto__"
    · exact Or.inr (Or.inl ⟨hl, hp, by simp [arrNameProp, hl, hp]⟩)
    · have hmem : key ∈ arrayProtoMethodNames ∨ key ∈ objectProtoMethodNames := by
        simp [arrNameIn, hl, hp] at h
        exact h
      rcases hmem with hm | hm
      · exact Or.inr (Or.inr ⟨hl, hp, Or.inl hm, by simp [arrNameProp, hl, hp, hm]⟩)
      · refine Or.inr (Or.inr ⟨hl, hp, Or.inr hm, ?_⟩)
        by_cases hma : key ∈ arrayProtoMethodNames
        · simp [arrNameProp, hl, hp, hma]
        · simp [arrNameProp, hl, hp, hma, hm]

/-- A name `Object.prototype`'s own `in` check accepts is visible with
the value the property read produces. -/
theorem opName_visible {key : String} (h : objNameIn key = true) :
    OpNameVisible key (opNameProp key) := by
  by_cases hp : key = "__proto__"
  · exact Or.inl ⟨hp, by simp [opNameProp, hp]⟩
  · have hmem : key ∈ objectProtoMethodNames := by
      simp [objNameIn, hp] at h
      exact h
    exact Or.inr ⟨hp, hmem, by simp [opNameProp, hp, hmem]⟩

/-- A name `Array.prototype`'s own `in` check accepts is visible with
the value the property read produces. -/
theorem apName_visible {key : String} (h : arrNameIn key = true) :
    ApNameVisible key (apNameProp key) := by
  by_cases hl : key = "length"
  · exact Or.inl ⟨hl, by simp [apNameProp, hl]⟩
  · by_cases hp : key = "__proto__"
    · exact Or.inr (Or.inl ⟨hl, hp, by simp [apNameProp, hl, hp]⟩)
    · have hmem : key ∈ arrayProtoMethodNames ∨ key ∈ objectProtoMethodNames := by
        simp [arrNameIn, hl, hp] at h
        exact h
      rcases hmem with hm | hm
      · exact Or.inr (Or.inr ⟨hl, hp, Or.inl hm, by simp [apNameProp, hl, hp, hm]⟩)
      · refine Or.inr (Or.inr ⟨hl, hp, Or.inr hm, ?_⟩)
        by_cases hma : key ∈ arrayProtoMethodNames
        · simp [apNameProp, hl, hp, hma]
        · simp [apNameProp, hl, hp, hma, hm]

/-- A key the `in` check accepts is visible with exactly the value the
property read produces. -/
theorem keyIn_getProp_visible : ∀ (c : JsCurrent) (key : String),
    keyIn c key = true → Visible c key (getProp c key) := by
  intro c key
  cases c with
  | func => intro h; simp [keyIn] at h
  | objectProto =>
      intro h
      simp only [keyIn] at h
      exact Or.inr (Or.inr (Or.inr (Or.inr (Or.inl ⟨rfl, opName_visible h⟩))))
  | arrayProto =>
      intro h
      simp only [keyIn] at h
      exact Or.inr (Or.inr (Or.inr (Or.inr (Or.inr ⟨rfl, apName_visible h⟩))))
  | val j =>
      cases j with
      | null => intro h; simp [keyIn] at h
      | undef => intro h; simp [keyIn] at h
      | bool b => intro h; simp [keyIn] at h
      | num n => intro h; simp [keyIn] at h
      | str st => intro h; simp [keyIn] at h
      | obj kvs =>
          intro h
          cases hl : lookupEntry key kvs with
          | some v =>
              simp only [getProp, hl]
              exact Or.inl ⟨kvs, v, rfl, hl, rfl⟩
          | none =>
              simp only [keyIn, hl] at h
              simp only [getProp, hl]
              exact Or.inr (Or.inl ⟨kvs, rfl, hl, objName_visible h⟩)
      | arr items =>
          intro h
          cases hi : arrayIndex? key with
          | some n =>
              simp only [keyIn, hi] at h
              simp only [getProp, hi]
              by_cases hlt : n < items.length
              · obtain ⟨v, hv⟩ : ∃ v, items[n]? = some v :=
                  ⟨_, List.getElem?_eq_getElem hlt⟩
                simp only [hv]
                exact Or.inr (Or.inr (Or.inl ⟨items, n, v, rfl, hi, hv, rfl⟩))
              · have hge : items[n]? = none :=
                  List.getElem?_eq_none (Nat.le_of_not_lt hlt)
                simp only [hge]
                have ha : arrNameIn key = true := by
                  simp [hlt] at h
                  exact h
                exact Or.inr (Or.inr (Or.inr (Or.inl
                  ⟨items, rfl, arrName_visible items ha⟩)))
          | none =>
              simp only [keyIn, hi] at h
              simp only [getProp, hi]
              exact Or.inr (Or.inr (Or.inr (Or.inl
                ⟨items, rfl, arrName_visible items h⟩)))

/-- A visible key passes the `in` check and is read as its visible
value. -/
theorem visible_keyIn_getProp {c : JsCurrent} {key : String} {w : JsCurrent}
    (h : Visible c key w) : keyIn c key = true ∧ getProp c key = w := by
  rcases h with ⟨kvs, v, rfl, hl, rfl⟩ | ⟨kvs, rfl, hl, hnv⟩ |
    ⟨items, n, v, rfl, hi, hv, rfl⟩ | ⟨items, rfl, hnv⟩ | ⟨rfl, hnv⟩ | ⟨rfl, hnv⟩
  · exact ⟨by simp [keyIn, hl], by simp [getProp, hl]⟩
  · constructor
    · simp only [keyIn, hl]
      rcases hnv with ⟨hp, -⟩ | ⟨-, hmem, -⟩
      · simp [objNameIn, hp]
      · simp [objNameIn, hmem]
    · simp only [getProp, hl]
      rcases hnv with ⟨hp, hw⟩ | ⟨hp, hmem, hw⟩
      · rw [hw]; simp [objNameProp, hp]
      · rw [hw]; simp [objNameProp, hp, hmem]
  · constructor
    · have hlt : n < items.length := by
        by_contra hge
        rw [List.getElem?_eq_none (Nat.le_of_not_lt hge)] at hv
        cases hv
      simp [keyIn, hi, hlt]
    · simp [getProp, hi, hv]
  · have hi : arrayIndex? key = none := by
      rcases hnv with ⟨hl, -⟩ | ⟨-, hp, -⟩ | ⟨-, -, hmem, -⟩
      · rw [hl]; exact arrayIndex?_length_none
      · rw [hp]; exact arrayIndex?_proto_none
      · rcases hmem with hm | hm
        · exact arrayIndex?_arrayProtoNames key hm
        · exact arrayIndex?_objectProtoNames key hm
    constructor
    · simp only [keyIn, hi]
      rcases hnv with ⟨hl, -⟩ | ⟨-, hp, -⟩ | ⟨-, -, hmem, -⟩
      · simp [arrNameIn, hl]
      · simp [arrNameIn, hp]
      · rcases hmem with hm | hm <;> simp [arrNameIn, hm]
    · simp only [getProp, hi]
      rcases hnv with ⟨hl, hw⟩ | ⟨hl, hp, hw⟩ | ⟨hl, hp, hmem, hw⟩
      · rw [hw]; simp [arrNameProp, hl]
      · rw [hw]; simp [arrNameProp, hl, hp]
      · rw [hw]
        rcases hmem with hm | hm
        · simp [arrNameProp, hl, hp, hm]
        · by_cases hma : key ∈ arrayProtoMethodNames
          · simp [arrNameProp, hl, hp, hma]
          · simp [arrNameProp, hl, hp, hma, hm]
  · constructor
    · simp only [keyIn]
      rcases hnv with ⟨hp, -⟩ | ⟨-, hmem, -⟩
      · simp [objNameIn, hp]
      · simp [objNameIn, hmem]
    · simp only [getProp]
      rcases hnv with ⟨hp, hw⟩ | ⟨hp, hmem, hw⟩
      · rw [hw]; simp [opNameProp, hp]
      · rw [hw]; simp [opNameProp, hp, hmem]
  · constructor
    · simp only [keyIn]
      rcases hnv with ⟨hl, -⟩ | ⟨-, hp, -⟩ | ⟨-, -, hmem, -⟩
      · simp [arrNameIn, hl]
      · simp [arrNameIn, hp]
      · rcases hmem with hm | hm <;> simp [arrNameIn, hm]
    · simp only [getProp]
      rcases hnv with ⟨hl, hw⟩ | ⟨hl, hp, hw⟩ | ⟨hl, hp, hmem, hw⟩
      · rw [hw]; simp [apNameProp, hl]
      · rw [hw]; simp [apNameProp, hl, hp]
      · rw [hw]
        rcases hmem with hm | hm
        · simp [apNameProp, hl, hp, hm]
        · by_cases hma : key ∈ arrayProtoMethodNames
          · simp [apNameProp, hl, hp, hma]
          · simp [apNameProp, hl, hp, hma, hm]

/-- A value with a visible key is neither nullish nor of non-object
type. -/
theorem visible_shape {c w : JsCurrent} {key : String} (h : Visible c key w) :
    isNullish c = false ∧ typeofObject c = true := by
  rcases h with ⟨kvs, v, rfl, -, -⟩ | ⟨kvs, rfl, -, -⟩ |
    ⟨items, n, v, rfl, -, -, -⟩ | ⟨items, rfl, -⟩ | ⟨rfl, -⟩ | ⟨rfl, -⟩ <;>
    exact ⟨rfl, rfl⟩

/-- The segment walk succeeds exactly when the spec-side
`in`-semantics path-existence predicate holds. -/
theorem hasKeyLoop_iff_js : ∀ (segs : List String) (c : JsCurrent),
    hasKeyLoop segs c = true ↔ JsPathExists segs c
  | [], c => by simp [hasKeyLoop, JsPathExists]
  | key :: rest, c => by
      constructor
      · intro h
        simp only [hasKeyLoop] at h
        by_cases hg : (isNullish c || !typeofObject c || !keyIn c key) = true
        · rw [if_pos hg] at h
          cases h
        · rw [if_neg hg] at h
          have hki : keyIn c key = true := by
            by_contra hk
            apply hg
            have hkf : keyIn c key = false := by
              cases hkk : keyIn c key
              · rfl
              · exact absurd hkk hk
            simp [hkf]
          exact ⟨getProp c key, keyIn_getProp_visible c key hki,
            (hasKeyLoop_iff_js rest (getProp c key)).mp h⟩
      · rintro ⟨w, hv, hrest⟩
        obtain ⟨hki, hgp⟩ := visible_keyIn_getProp hv
        obtain ⟨hnn, hto⟩ := visible_shape hv
        simp only [hasKeyLoop]
        rw [if_neg (by simp [hnn, hto, hki])]
        rw [hgp]
        exact (hasKeyLoop_iff_js rest w).mpr hrest

/-- C1: for every rule, `getRequiredKeys` returns the sequence of
recorded var paths deduplicated by first occurrence — each recorded
path appears exactly once, at the position of its first encounter
during the pre-order, depth-first, left-to-right traversal of the rule
tree (arrays element by element in order, object values in the object's
key order). -/
theorem getRequiredKeys_dedup_preorder (rule : Json) :
    getRequiredKeys rule = dedupFirst (recordedPaths rule) :=
  getRequiredKeys_eq_dedupFirst rule

/-- C2: at an object node owning a property named `var`: a string
value is recorded as a required path; an array value whose first
element is a string has that first element recorded; any other value
records nothing for this property (the key set passes through the var
step unchanged). -/
theorem varProperty_recording (kvs : List (String × Json)) :
    (∀ s : String, lookupEntry "var" kvs = some (Json.str s) →
      s ∈ getRequiredKeys (Json.obj kvs)) ∧
    (∀ (s : String) (rest : List Json),
      lookupEntry "var" kvs = some (Json.arr (Json.str s :: rest)) →
      s ∈ getRequiredKeys (Json.obj kvs)) ∧
    (∀ other : Json, lookupEntry "var" kvs = some other →
      (∀ s : String, other ≠ Json.str s) →
      (∀ (s : String) (rest : List Json), other ≠ Json.arr (Json.str s :: rest)) →
      ∀ keys : List String, traverse (Json.obj kvs) keys = traverseValues kvs keys) := by
  refine ⟨?_, ?_, ?_⟩
  · intro s h
    rw [mem_getRequiredKeys]
    exact isVarNode_mem_recorded ⟨kvs, rfl, Or.inl h⟩
  · intro s rest h
    rw [mem_getRequiredKeys]
    exact isVarNode_mem_recorded ⟨kvs, rfl, Or.inr ⟨rest, h⟩⟩
  · intro other h h1 h2 keys
    have hv : varStep kvs keys = keys := by
      unfold varStep
      rw [h]
      cases other with
      | str s => exact absurd rfl (h1 s)
      | arr items =>
          cases items with
          | nil => rfl
          | cons hd tl =>
              cases hd with
              | str s => exact absurd rfl (h2 s tl)
              | null => rfl
              | undef => rfl
              | bool b => rfl
              | num n => rfl
              | arr a => rfl
              | obj o => rfl
      | null => rfl
      | undef => rfl
      | bool b => rfl
      | num n => rfl
      | obj o => rfl
    show traverseValues kvs (varStep kvs keys) = traverseValues kvs keys
    rw [hv]

/-- C2 witness: the three recording cases at concrete nodes — a string
var, an array-with-string-head var, and a numeric var that records
nothing. -/
theorem varProperty_recording_witness :
    "a" ∈ getRequiredKeys (Json.obj [("var", Json.str "a")]) ∧
    "b" ∈ getRequiredKeys (Json.obj [("var", Json.arr [Json.str "b", Json.num 0])]) ∧
    traverse (Json.obj [("var", Json.num 1)]) [] = traverseValues [("var", Json.num 1)] [] :=
  ⟨(varProperty_recording [("var", Json.str "a")]).1 "a" rfl,
   (varProperty_recording [("var", Json.arr [Json.str "b", Json.num 0])]).2.1
     "b" [Json.num 0] rfl,
   (varProperty_recording [("var", Json.num 1)]).2.2 (Json.num 1) rfl
     (fun _ h => Json.noConfusion h) (fun _ _ h => Json.noConfusion h) []⟩

/-- C3: `canExecuteRule` returns true when the rule requires no keys,
regardless of the data; and in general it returns true exactly when
every required path passes the existence check (so it is false as soon
as any path fails). -/
theorem canExecuteRule_spec (rule data : Json) :
    (getRequiredKeys rule = [] → canExecuteRule rule data = true) ∧
    (canExecuteRule rule data = true ↔
      ∀ key ∈ getRequiredKeys rule, hasKey data key = true) := by
  constructor
  · intro h
    simp [canExecuteRule, h]
  · unfold canExecuteRule
    by_cases h : (getRequiredKeys rule).length = 0
    · rw [List.length_eq_zero] at h
      simp [h]
    · simp only [h, if_false]
      rw [List.all_eq_true]

/-- C3 witness: a static rule is executable against `null` data, and a
one-variable rule is executable exactly because its path exists. -/
theorem canExecuteRule_spec_witness :
    canExecuteRule (Json.obj [("==", Json.arr [Json.num 1, Json.num 1])]) Json.null = true ∧
    canExecuteRule (Json.obj [("var", Json.str "age")])
      (Json.obj [("age", Json.num 25)]) = true :=
  ⟨(canExecuteRule_spec (Json.obj [("==", Json.arr [Json.num 1, Json.num 1])])
      Json.null).1 (by decide),
   (canExecuteRule_spec (Json.obj [("var", Json.str "age")])
      (Json.obj [("age", Json.num 25)])).2.mpr (by decide)⟩

/-- C4 counterexample: the existence check does not test direct
ownership — the `in` operator it uses also sees prototype-inherited
names and an array's own `length`. The empty object owns nothing, yet
`hasKey({}, "toString")` is true; the array `[1, 2]` directly owns only
its indices, yet `hasKey({"a": [1, 2]}, "a.length")` is true. -/
theorem hasKey_own_only_cex :
    hasKey (Json.obj []) "toString" = true ∧
    ¬ PathExists (splitOnDot "toString") (Json.obj []) ∧
    hasKey (Json.obj [("a", Json.arr [Json.num 1, Json.num 2])]) "a.length" = true ∧
    ¬ PathExists (splitOnDot "a.length")
      (Json.obj [("a", Json.arr [Json.num 1, Json.num 2])]) := by
  refine ⟨by decide, ?_, by decide, ?_⟩
  · have hs : splitOnDot "toString" = ["toString"] := by decide
    rw [hs]
    rintro ⟨w, hw, -⟩
    rcases hw with ⟨kvs, heq, hl⟩ | ⟨items, n, heq, -, -⟩
    · injection heq with hk
      subst hk
      simp [lookupEntry] at hl
    · exact Json.noConfusion heq
  · have hs : splitOnDot "a.length" = ["a", "length"] := by decide
    rw [hs]
    rintro ⟨w, hw, hrest⟩
    rcases hw with ⟨kvs, heq, hl⟩ | ⟨items, n, heq, -, -⟩
    · injection heq with hk
      subst hk
      have hwv : w = Json.arr [Json.num 1, Json.num 2] := by
        have hle : lookupEntry "a" [("a", Json.arr [Json.num 1, Json.num 2])]
            = some (Json.arr [Json.num 1, Json.num 2]) := rfl
        rw [hle] at hl
        injection hl with hv
        exact hv.symm
      subst hwv
      obtain ⟨w2, hw2, -⟩ := hrest
      rcases hw2 with ⟨kvs2, heq2, -⟩ | ⟨items2, n2, heq2, hidx, -⟩
      · exact Json.noConfusion heq2
      · rw [arrayIndex?_length_none] at hidx
        cases hidx
    · exact Json.noConfusion heq

/-- C4 amended: the existence check walks the dot-separated segments
in order, failing immediately when the current value is nullish, not
of object type, or when the segment's name is not visible to the
JavaScript `in` operator on that value — `in` sees own properties AND
prototype-inherited names, as well as an array's own `length`;
otherwise it descends into the property's value (possibly a host value
such as an inherited method). If all segments are consumed it returns
true — in particular a directly-owned key with value `null` or
`undefined` counts as present, and a name absent both as an own
property and from the prototype chain makes the check return false. -/
theorem hasKey_js_pathExists (data : Json) (keyPath : String) :
    hasKey data keyPath = true ↔ JsPathExists (splitOnDot keyPath) (JsCurrent.val data) :=
  hasKeyLoop_iff_js (splitOnDot keyPath) (JsCurrent.val data)

/-- C5: `getRequiredKeys` and `canExecuteRule` are total — for every
JSON-representable rule (including `null`, `undefined`, primitives,
arrays, arbitrary objects) and every data value, both return a result.
The embedding itself is accepted by the termination checker as a total
function over the whole value domain; this theorem records that a
result exists at every input. -/
theorem extractor_validator_total (r d : Json) :
    ∃ (ks : List String) (b : Bool), getRequiredKeys r = ks ∧ canExecuteRule r d = b :=
  ⟨getRequiredKeys r, canExecuteRule r d, rfl, rfl⟩

/-- C6: a var-with-default node anywhere in the rule whose default
value contains a nested variable reference contributes that nested
path to `getRequiredKeys` — the generic recursive descent reaches the
var property's own array value and hence the default. -/
theorem varDefault_nested_collected (rule node dflt sub : Json)
    (kvs : List (String × Json)) (path q : String)
    (h1 : Occurs node rule) (h2 : node = Json.obj kvs)
    (h3 : lookupEntry "var" kvs = some (Json.arr [Json.str path, dflt]))
    (h4 : Occurs sub dflt) (h5 : IsVarNode sub q) :
    q ∈ getRequiredKeys rule := by
  subst h2
  rw [mem_getRequiredKeys]
  have hmem : ("var", Json.arr [Json.str path, dflt]) ∈ kvs := lookupEntry_mem h3
  have hd : dflt ∈ [Json.str path, dflt] := by simp
  have o1 : Occurs sub (Json.arr [Json.str path, dflt]) := Occurs.arrElem hd h4
  have o2 : Occurs sub (Json.obj kvs) := Occurs.objValue hmem o1
  exact occurs_mem_recorded (occurs_trans o2 h1) h5

/-- C6 witness: the rule `{"var": ["a", {"var": "b"}]}` requires the
nested default's path `"b"`. -/
theorem varDefault_nested_collected_witness :
    "b" ∈ getRequiredKeys (Json.obj [("var", Json.arr [Json.str "a",
      Json.obj [("var", Json.str "b")]])]) :=
  varDefault_nested_collected
    (Json.obj [("var", Json.arr [Json.str "a", Json.obj [("var", Json.str "b")]])])
    (Json.obj [("var", Json.arr [Json.str "a", Json.obj [("var", Json.str "b")]])])
    (Json.obj [("var", Json.str "b")])
    (Json.obj [("var", Json.str "b")])
    [("var", Json.arr [Json.str "a", Json.obj [("var", Json.str "b")]])]
    "a" "b"
    (Occurs.refl _) rfl rfl (Occurs.refl _)
    ⟨[("var", Json.str "b")], rfl, Or.inl rfl⟩

/-- C7 counterexample: for the rule `{"var": ["a", {"var": "b"}]}` the
default value IS traversed — the nested reference `"b"` inside the
default appears in the output, so the elements after the first are not
exempt from traversal and the default is scanned for nested variable
references. -/
theorem varDefault_not_traversed_cex :
    getRequiredKeys (Json.obj [("var", Json.arr [Json.str "a",
      Json.obj [("var", Json.str "b")]])]) = ["a", "b"] := by
  decide

/-- C7 amended: the var-recording step itself records only the first
element of the array — the elements after the first contribute no
recorded path at that step, so a default that is a primitive value
yields exactly the first element as the required key; the default is
nevertheless traversed by the generic descent (see the counterexample),
so nested variable references inside it are collected. -/
theorem varDefault_recording_only_first (p : String) (d : Json) (extras : List Json)
    (keys : List String) (hd : d.isPrimitive = true) :
    getRequiredKeys (Json.obj [("var", Json.arr [Json.str p, d])]) = [p] ∧
    varStep [("var", Json.arr (Json.str p :: extras))] keys = setAdd keys p := by
  constructor
  · cases d with
    | arr items => simp [Json.isPrimitive] at hd
    | obj kvs => simp [Json.isPrimitive] at hd
    | null => rfl
    | undef => rfl
    | bool b => rfl
    | num n => rfl
    | str s => rfl
  · rfl

/-- C7 amended witness: the default-form rule from the spec's test
table records only the path, not the default string. -/
theorem varDefault_recording_only_first_witness :
    getRequiredKeys (Json.obj [("var", Json.arr [Json.str "status",
      Json.str "inactive"])]) = ["status"] ∧
    varStep [("var", Json.arr [Json.str "status", Json.str "inactive"])] []
      = setAdd [] "status" :=
  varDefault_recording_only_first "status" (Json.str "inactive")
    [Json.str "inactive"] [] (by decide)

/-- C8: whenever the engine raises on the (defaulted) rule/data pair,
`evaluateRule` fails with the one normalized error kind, carrying the
original failure's message when the thrown value is an `Error` and the
generic unknown-error message otherwise; by its result type no native
engine failure can escape unnormalized. -/
theorem evaluateRule_error_normalized
    (engine : Json → Json → Except JSThrown Json) (rule data : Json) (e : JSThrown)
    (h : engine rule (nullishData data) = Except.error e) :
    evaluateRule engine rule data = Except.error (normalizedFailure e) := by
  cases e with
  | jsError msg =>
      unfold evaluateRule
      rw [h]
      rfl
  | nonError =>
      unfold evaluateRule
      rw [h]
      rfl

/-- C8 witness: an engine that throws an `Error` with a message has
that message carried into the normalized failure. -/
theorem evaluateRule_error_normalized_witness :
    evaluateRule (fun _ _ => Except.error (JSThrown.jsError "Unrecognized operation"))
      (Json.obj [("foo", Json.num 1)]) Json.undef
      = Except.error (EvaluationError.mk "Failed to evaluate rule: Unrecognized operation") :=
  evaluateRule_error_normalized
    (fun _ _ => Except.error (JSThrown.jsError "Unrecognized operation"))
    (Json.obj [("foo", Json.num 1)]) Json.undef
    (JSThrown.jsError "Unrecognized operation") rfl

/-- C9: at an object node whose properties include `var` among any
others, the var path is recorded exactly as at a sole-key var node —
any var-reference shape (string or array-with-string-head) contributes
its path, and the var step's effect on the key set depends only on the
var value, not on the siblings — and, independently of the var value's
shape, every variable reference occurring inside any property's value
is collected as well. -/
theorem varWithSiblings_collected (kvs : List (String × Json)) :
    (∀ p : String, IsVarNode (Json.obj kvs) p → p ∈ getRequiredKeys (Json.obj kvs)) ∧
    (∀ (v : Json) (keys : List String), lookupEntry "var" kvs = some v →
      varStep kvs keys = varStep [("var", v)] keys) ∧
    (∀ (k : String) (v sub : Json) (q : String),
      (k, v) ∈ kvs → Occurs sub v → IsVarNode sub q →
      q ∈ getRequiredKeys (Json.obj kvs)) := by
  refine ⟨?_, ?_, ?_⟩
  · intro p hp
    rw [mem_getRequiredKeys]
    exact isVarNode_mem_recorded hp
  · intro v keys h
    unfold varStep
    rw [h]
    rfl
  · intro k v sub q hmem hocc hvns
    rw [mem_getRequiredKeys]
    exact occurs_mem_recorded (Occurs.objValue hmem hocc) hvns

/-- C9 witness: an array-form var with a sibling records its path; a
numeric var's step equals the sole-key numeric var's step; and a
nested reference inside a sibling of a numeric var is collected. -/
theorem varWithSiblings_collected_witness :
    "a" ∈ getRequiredKeys (Json.obj [("var", Json.arr [Json.str "a", Json.num 0]),
      ("sib", Json.obj [("var", Json.str "b")])]) ∧
    varStep [("var", Json.num 1), ("sib", Json.obj [("var", Json.str "c")])] []
      = varStep [("var", Json.num 1)] [] ∧
    "c" ∈ getRequiredKeys (Json.obj [("var", Json.num 1),
      ("sib", Json.obj [("var", Json.str "c")])]) :=
  ⟨(varWithSiblings_collected [("var", Json.arr [Json.str "a", Json.num 0]),
      ("sib", Json.obj [("var", Json.str "b")])]).1 "a"
      ⟨[("var", Json.arr [Json.str "a", Json.num 0]),
        ("sib", Json.obj [("var", Json.str "b")])], rfl, Or.inr ⟨[Json.num 0], rfl⟩⟩,
   (varWithSiblings_collected [("var", Json.num 1),
      ("sib", Json.obj [("var", Json.str "c")])]).2.1 (Json.num 1) [] rfl,
   (varWithSiblings_collected [("var", Json.num 1),
      ("sib", Json.obj [("var", Json.str "c")])]).2.2 "sib"
      (Json.obj [("var", Json.str "c")]) (Json.obj [("var", Json.str "c")]) "c"
      (List.mem_cons_of_mem _ (List.mem_cons_self _ _)) (Occurs.refl _)
      ⟨[("var", Json.str "c")], rfl, Or.inl rfl⟩⟩

/-- C10: the rule referencing the whole data context via the empty
path requires exactly the empty-string key, so the rule is not
executable against any data object lacking a property named by the
empty string. -/
theorem emptyVar_requires_emptyKey :
    getRequiredKeys (Json.obj [("var", Json.str "")]) = [""] ∧
    ∀ (kvs : List (String × Json)), lookupEntry "" kvs = none →
      canExecuteRule (Json.obj [("var", Json.str "")]) (Json.obj kvs) = false := by
  constructor
  · decide
  · intro kvs h
    have hk : hasKey (Json.obj kvs) "" = false := by
      show hasKeyLoop [""] (JsCurrent.val (Json.obj kvs)) = false
      have ho : objNameIn "" = false := by decide
      have hki : keyIn (JsCurrent.val (Json.obj kvs)) "" = false := by
        simp only [keyIn, h, ho]
      simp [hasKeyLoop, isNullish, typeofObject, hki]
    have h1 : getRequiredKeys (Json.obj [("var", Json.str "")]) = [""] := by decide
    simp only [canExecuteRule, h1]
    simp [hk]

/-- C10 witness: a non-empty data object without an empty-string key
cannot execute the whole-context rule. -/
theorem emptyVar_requires_emptyKey_witness :
    canExecuteRule (Json.obj [("var", Json.str "")])
      (Json.obj [("a", Json.num 1)]) = false :=
  emptyVar_requires_emptyKey.2 [("a", Json.num 1)] rfl
